import Mathlib

/-!
Verification of the dw-rand random number generator.

The generator state is two 64-bit words, embedded here as natural numbers
together with explicit bounds; every operation of the library (state
construction, the transition/output step, splitting, byte filling, and the
thread-local accessor protocol) is translated into a pure Lean function,
with 64-bit wrapping arithmetic rendered as arithmetic modulo 2^64.
-/

namespace DwRand

/-- The generator state: two 64-bit unsigned words, as in the Rust struct. -/
structure Rng where
  x : Nat
  y : Nat
deriving DecidableEq

/-- High 64 bits of the full 64x64 product, as in the Rust helper, where the
product is computed in 128 bits, shifted right by 64 and cast back to u64. -/
def umulh (x y : Nat) : Nat :=
  ((x * y) >>> 64) % 2^64

/-- Rotation of a 64-bit word right by 7 bit positions. -/
def rotate_right7 (x : Nat) : Nat :=
  (x >>> 7) ||| ((x <<< 57) % 2^64)

/-- Little-endian interpretation of a byte list as one unsigned integer. -/
def u128_from_le_bytes (bs : List Nat) : Nat :=
  bs.foldr (fun b acc => b + 256 * acc) 0

/-- Seed-to-state conversion: the little-endian value of the 16 seed bytes,
except that a zero value is replaced by 1 (the NonZeroU128 fixup). -/
def make_state (seed : List Nat) : Nat :=
  let s := u128_from_le_bytes seed
  if s = 0 then 1 else s

/-- Construction from an explicit 128-bit state: low word and high word. -/
def Rng.new (s : Nat) : Rng :=
  ⟨s % 2^64, (s >>> 64) % 2^64⟩

/-- Construction from a 16-byte seed. -/
def Rng.from_seed (seed : List Nat) : Rng :=
  Rng.new (make_state seed)

/-- The current 128-bit state: low word or-ed with the high word shifted up. -/
def Rng.state (g : Rng) : Nat :=
  g.x ||| (g.y <<< 64)

/-- One step of the generator: the state transition together with the
64-bit output, with wrapping addition and multiplication modulo 2^64. -/
def next (g : Rng) : Nat × Rng :=
  let x := g.x
  let y := g.y
  let a := rotate_right7 x ^^^ y
  let b := x ^^^ (x >>> 19)
  let c := (a + ((x * y) % 2^64 ^^^ umulh x y)) % 2^64
  (c, ⟨a, b⟩)

/-- A chunk of n outputs drawn by n sequential steps. -/
def chunk (n : Nat) (g : Rng) : List Nat × Rng :=
  match n with
  | 0 => ([], g)
  | n + 1 =>
    let p := next g
    let rest := chunk n p.2
    (p.1 :: rest.1, rest.2)

/-- Splitting off a child generator: two fresh outputs p and q, the child
state being (p with its low bit forced to 1, q); returns (child, parent). -/
def split (g : Rng) : Rng × Rng :=
  let p := next g
  let q := next p.2
  (⟨p.1 ||| 1, q.1⟩, q.2)

/-- The eight little-endian bytes of a 64-bit value. -/
def u64_to_le_bytes (v : Nat) : List Nat :=
  [v % 256, (v >>> 8) % 256, (v >>> 16) % 256, (v >>> 24) % 256,
   (v >>> 32) % 256, (v >>> 40) % 256, (v >>> 48) % 256, (v >>> 56) % 256]

/-- The loop of the fill routine, for a nonempty destination: draw one
output; if at most 8 bytes remain, write that many of its low-order bytes
and stop; otherwise write all 8 bytes and continue on the rest. -/
def fill_loop (g : Rng) (len : Nat) : List Nat × Rng :=
  let p := next g
  if _h : len ≤ 8 then
    ((u64_to_le_bytes p.1).take len, p.2)
  else
    let rest := fill_loop p.2 (len - 8)
    (u64_to_le_bytes p.1 ++ rest.1, rest.2)
termination_by len
decreasing_by omega

/-- Filling a buffer of the given length: an immediate return on length
zero, otherwise the draw-and-copy loop. -/
def fill (g : Rng) (len : Nat) : List Nat × Rng :=
  if len = 0 then ([], g) else fill_loop g len

/-- The specification-level byte stream: the little-endian concatenation of
ceil(len/8) consecutive outputs, truncated to len bytes. -/
def fill_spec (g : Rng) (len : Nat) : List Nat × Rng :=
  let p := chunk ((len + 7) / 8) g
  (((p.1.map u64_to_le_bytes).flatten).take len, p.2)

/-- The thread-local cell protocol with the operating-system seed made an
explicit parameter: read the cell, substitute a fresh seeded state exactly
when the cell holds the zero sentinel, run the operation on a transient
generator, and return its result together with the written-back state. -/
def with_rng {α : Type} (cell : Nat) (os_seed : List Nat) (f : Rng → α × Rng) : α × Nat :=
  let s := if cell = 0 then make_state os_seed else cell
  let g := Rng.new s
  let p := f g
  (p.1, p.2.state)

/-- The thread-local chunk operation. -/
def tl_chunk (n : Nat) (cell : Nat) (os_seed : List Nat) : List Nat × Nat :=
  with_rng cell os_seed (chunk n)

/-- The thread-local split operation. -/
def tl_split (cell : Nat) (os_seed : List Nat) : Rng × Nat :=
  with_rng cell os_seed split

/-- The ASCII bytes of the seed string used by the published test vectors. -/
def seed_auto : List Nat :=
  [97, 117, 116, 111, 118, 105, 118, 105, 102, 105, 99, 97, 116, 105, 111, 110]

/-- The all-zero 16-byte seed. -/
def seed_zero : List Nat :=
  List.replicate 16 0

/-- Well-formedness of an embedded state: both words fit in 64 bits and the
pair is not the all-zero pair. -/
def good (g : Rng) : Prop :=
  g.x < 2^64 ∧ g.y < 2^64 ∧ ¬(g.x = 0 ∧ g.y = 0)

/-- A generator state is reachable when it arises from one of the public
constructors and any sequence of the public state-advancing operations. -/
inductive Reachable : Rng → Prop where
  | of_new : ∀ s : Nat, s ≠ 0 → s < 2^128 → Reachable (Rng.new s)
  | of_seed : ∀ seed : List Nat, seed.length = 16 → (∀ b ∈ seed, b < 256) →
      Reachable (Rng.from_seed seed)
  | of_next : ∀ g : Rng, Reachable g → Reachable (next g).2
  | of_chunk : ∀ (n : Nat) (g : Rng), Reachable g → Reachable (chunk n g).2
  | of_fill : ∀ (len : Nat) (g : Rng), Reachable g → Reachable (fill g len).2
  | of_split_child : ∀ g : Rng, Reachable g → Reachable (split g).1
  | of_split_parent : ∀ g : Rng, Reachable g → Reachable (split g).2

theorem lor_shiftLeft_eq_add (a b k : Nat) (ha : a < 2^k) :
    a ||| (b <<< k) = 2^k * b + a := by
  apply Nat.eq_of_testBit_eq
  intro j
  rw [Nat.testBit_lor, Nat.testBit_shiftLeft, Nat.testBit_mul_pow_two_add b ha j]
  by_cases hj : j < k
  · simp [hj, Nat.not_le.mpr hj]
  · have hfa : a.testBit j = false :=
      Nat.testBit_lt_two_pow
        (lt_of_lt_of_le ha (Nat.pow_le_pow_right (by norm_num) (Nat.le_of_not_lt hj)))
    simp [hj, hfa, Nat.le_of_not_lt hj]

theorem lor_one_mod_two (p : Nat) : (p ||| 1) % 2 = 1 := by
  simp

theorem state_eq (g : Rng) (hx : g.x < 2^64) : g.state = 2^64 * g.y + g.x := by
  unfold Rng.state
  exact lor_shiftLeft_eq_add g.x g.y 64 hx

theorem rotate_right7_eq (x : Nat) (hx : x < 2^64) :
    rotate_right7 x = 2^57 * (x % 2^7) + x / 2^7 := by
  unfold rotate_right7
  have h1 : x <<< 57 = x * 2^57 := Nat.shiftLeft_eq x 57
  have h2 : x * 2^57 % 2^64 = x % 2^7 * 2^57 := by
    have := Nat.mul_mod_mul_right (2^57) x (2^7)
    calc x * 2^57 % 2^64 = x * 2^57 % (2^7 * 2^57) := by norm_num
    _ = x % 2^7 * 2^57 := Nat.mul_mod_mul_right (2^57) x (2^7)
  have h3 : x % 2^7 * 2^57 = (x % 2^7) <<< 57 := (Nat.shiftLeft_eq (x % 2^7) 57).symm
  have h4 : x >>> 7 = x / 2^7 := Nat.shiftRight_eq_div_pow x 7
  have h5 : x / 2^7 < 2^57 := by omega
  rw [h1, h2, h3, h4, lor_shiftLeft_eq_add (x / 2^7) (x % 2^7) 57 h5]

theorem umulh_eq (x y : Nat) (hx : x < 2^64) (hy : y < 2^64) :
    umulh x y = x * y / 2^64 := by
  unfold umulh
  have hp : x * y < 2^128 := by
    calc x * y < 2^64 * 2^64 := Nat.mul_lt_mul'' hx hy
    _ = 2^128 := by norm_num
  rw [Nat.shiftRight_eq_div_pow]
  exact Nat.mod_eq_of_lt (by omega)

theorem u128_from_le_bytes_lt (bs : List Nat) (hb : ∀ b ∈ bs, b < 256) :
    u128_from_le_bytes bs < 256 ^ bs.length := by
  induction bs with
  | nil => simp [u128_from_le_bytes]
  | cons b bs ih =>
    have hb0 : b < 256 := hb b (by simp)
    have ih0 := ih (fun c hc => hb c (by simp [hc]))
    unfold u128_from_le_bytes at ih0 ⊢
    simp only [List.foldr_cons, List.length_cons]
    have : (256 : Nat) ^ (bs.length + 1) = 256 * 256 ^ bs.length := by
      rw [Nat.pow_succ]; ring
    omega

/-- C1: one step of the generator maps state (x, y) to
(rotate_right(x, 7) xor y, x xor (x >> 19)) and outputs the wrapping
64-bit sum of the new x word with (low half xor high half) of the full
product x*y, expressed here in plain modular arithmetic; the step is a
pure function of the state and yields one output below 2^64. -/
theorem next_correct (x y : Nat) (hx : x < 2^64) (hy : y < 2^64) :
    next (Rng.mk x y) =
      ((((2^57 * (x % 2^7) + x / 2^7) ^^^ y) + (x * y % 2^64 ^^^ x * y / 2^64)) % 2^64,
        Rng.mk ((2^57 * (x % 2^7) + x / 2^7) ^^^ y) (x ^^^ x / 2^19)) ∧
    (next (Rng.mk x y)).1 < 2^64 := by
  constructor
  · simp only [next]
    rw [rotate_right7_eq x hx, umulh_eq x y hx hy, Nat.shiftRight_eq_div_pow x 19]
  · simp only [next]
    exact Nat.mod_lt _ (by norm_num)

theorem next_correct_witness :
    next (Rng.mk 3 5) =
      ((((2^57 * (3 % 2^7) + 3 / 2^7) ^^^ 5) + (3 * 5 % 2^64 ^^^ 3 * 5 / 2^64)) % 2^64,
        Rng.mk ((2^57 * (3 % 2^7) + 3 / 2^7) ^^^ 5) (3 ^^^ 3 / 2^19)) ∧
    (next (Rng.mk 3 5)).1 < 2^64 :=
  next_correct 3 5 (by decide) (by decide)

/-- C2: starting from the seed bytes of the test string, the first four
outputs are the four published 64-bit test-vector values, in order, and are
a pure function of the seed alone. -/
theorem test_vector_first_four :
    (chunk 4 (Rng.from_seed seed_auto)).1 =
      [0xe6cb90eb01058266, 0x2d8ce79534418c6f, 0x619cdce6110c5a54, 0xaca4ba9f7d51d010] := by
  decide

/-- C7: after seeding with the test string and drawing four outputs,
splitting yields a child whose first four outputs are the four published
child test-vector values, in order. -/
theorem test_vector_split_child :
    (chunk 4 (split ((chunk 4 (Rng.from_seed seed_auto)).2)).1).1 =
      [0x024a1e4ef47f4d49, 0x5b40830b87734777, 0xa8f55647e9fbe2d3, 0xe088780fee8e67e6] := by
  decide

/-- C3 counterexample: on the freshly seeded test generator the first drawn
output is even, and the child state produced by split does not carry that
output as-is in its x word, refuting the no-fixup reading of split. -/
theorem split_as_is_counterexample :
    (split (Rng.from_seed seed_auto)).1.x ≠ (next (Rng.from_seed seed_auto)).1 := by
  decide

/-- C4 counterexample: the all-zero 16-byte seed does not produce the
all-zero state pair; the seed-to-state conversion replaces it by state 1. -/
theorem from_seed_zero_counterexample :
    Rng.from_seed seed_zero ≠ Rng.mk 0 0 ∧ Rng.from_seed seed_zero = Rng.mk 1 0 := by
  decide

/-- C3 (amended): split draws p and then q from the parent, leaves the
parent exactly two steps ahead, and builds the child from (p with its low
bit forced to 1, q): the child x word is p ||| 1, hence always odd, rather
than p taken as-is. -/
theorem split_correct (g : Rng) :
    (split g).1.x = (next g).1 ||| 1 ∧
    (split g).1.x % 2 = 1 ∧
    (split g).1.y = (next (next g).2).1 ∧
    (split g).2 = (next (next g).2).2 := by
  refine ⟨rfl, ?_, rfl, rfl⟩
  exact lor_one_mod_two (next g).1

/-- C4 (amended): from_seed interprets the 16 bytes as one little-endian
128-bit integer v and uses v as-is — x the low 64 bits, y the high 64
bits — for every nonzero v; the all-zero seed alone is remapped to state 1
rather than to the all-zero pair. -/
theorem from_seed_correct (seed : List Nat) (h16 : seed.length = 16)
    (hb : ∀ b ∈ seed, b < 256) :
    Rng.from_seed seed =
      (if u128_from_le_bytes seed = 0 then Rng.mk 1 0
        else Rng.mk (u128_from_le_bytes seed % 2^64) (u128_from_le_bytes seed / 2^64)) ∧
    (Rng.from_seed seed).state = make_state seed := by
  have hlt : u128_from_le_bytes seed < 2^128 := by
    have := u128_from_le_bytes_lt seed hb
    rw [h16] at this
    calc u128_from_le_bytes seed < 256^16 := this
    _ = 2^128 := by norm_num
  have hmain : Rng.from_seed seed =
      (if u128_from_le_bytes seed = 0 then Rng.mk 1 0
        else Rng.mk (u128_from_le_bytes seed % 2^64) (u128_from_le_bytes seed / 2^64)) := by
    unfold Rng.from_seed make_state Rng.new
    by_cases h0 : u128_from_le_bytes seed = 0
    · simp [h0]
    · simp only [h0, if_neg, if_false]
      have hdiv : u128_from_le_bytes seed >>> 64 = u128_from_le_bytes seed / 2^64 :=
        Nat.shiftRight_eq_div_pow _ 64
      rw [hdiv]
      have : u128_from_le_bytes seed / 2^64 < 2^64 := by omega
      rw [Nat.mod_eq_of_lt this]
  refine ⟨hmain, ?_⟩
  rw [hmain]
  by_cases h0 : u128_from_le_bytes seed = 0
  · simp [h0, make_state, Rng.state]
  · simp only [h0, if_neg, if_false]
    have hx : u128_from_le_bytes seed % 2^64 < 2^64 := Nat.mod_lt _ (by norm_num)
    rw [state_eq _ hx]
    simp only [make_state, h0, if_neg, if_false]
    omega

theorem from_seed_correct_witness :
    (Rng.from_seed seed_auto =
      (if u128_from_le_bytes seed_auto = 0 then Rng.mk 1 0
        else Rng.mk (u128_from_le_bytes seed_auto % 2^64) (u128_from_le_bytes seed_auto / 2^64)) ∧
    (Rng.from_seed seed_auto).state = make_state seed_auto) :=
  from_seed_correct seed_auto (by decide) (by decide)

/-- C8: filling a zero-length buffer is a no-op: no bytes are produced, no
output is drawn, and the generator state is unchanged. -/
theorem fill_empty_noop (g : Rng) :
    fill g 0 = ([], g) ∧ (fill g 0).2.state = g.state := by
  constructor <;> simp [fill]

/-- C9: each thread-local operation reads the cell, substitutes a freshly
OS-seeded state exactly when the cell holds the zero sentinel, runs the
operation on a transient generator built from that state, writes the
post-operation state back, and returns the operation's result. -/
theorem thread_local_protocol (cell : Nat) (os_seed : List Nat) (n : Nat) :
    (tl_chunk n cell os_seed).1 =
      (chunk n (Rng.new (if cell = 0 then make_state os_seed else cell))).1 ∧
    (tl_chunk n cell os_seed).2 =
      (chunk n (Rng.new (if cell = 0 then make_state os_seed else cell))).2.state ∧
    (tl_split cell os_seed).1 =
      (split (Rng.new (if cell = 0 then make_state os_seed else cell))).1 ∧
    (tl_split cell os_seed).2 =
      (split (Rng.new (if cell = 0 then make_state os_seed else cell))).2.state ∧
    (tl_chunk n 0 os_seed).2 =
      (chunk n (Rng.new (make_state os_seed))).2.state ∧
    (tl_split 0 os_seed).2 =
      (split (Rng.new (make_state os_seed))).2.state := by
  refine ⟨rfl, rfl, rfl, rfl, ?_, ?_⟩ <;> simp [tl_chunk, tl_split, with_rng]

/-- C10: the 128-bit state round-trips verbatim: reading the state of a
generator built from any nonzero 128-bit value gives that value back, a
generator rebuilt from a saved state has the identical word pair, and the
rebuilt generator produces the identical output sequence. -/
theorem state_roundtrip (s : Nat) (g : Rng) (n : Nat) (hs0 : s ≠ 0) (hs : s < 2^128)
    (hx : g.x < 2^64) (hy : g.y < 2^64) :
    (Rng.new s).state = s ∧
    Rng.new g.state = g ∧
    chunk n (Rng.new g.state) = chunk n g := by
  have h1 : (Rng.new s).state = s := by
    unfold Rng.new
    rw [state_eq _ (by exact Nat.mod_lt _ (by norm_num))]
    simp only
    rw [Nat.shiftRight_eq_div_pow]
    have : s / 2^64 < 2^64 := by omega
    rw [Nat.mod_eq_of_lt this]
    omega
  have h2 : Rng.new g.state = g := by
    rw [state_eq _ hx]
    unfold Rng.new
    rw [Nat.shiftRight_eq_div_pow]
    cases g with
    | mk gx gy =>
      simp only at hx hy ⊢
      congr 1
      · omega
      · have hq : (2^64 * gy + gx) / 2^64 = gy := by omega
        rw [hq, Nat.mod_eq_of_lt hy]
  exact ⟨h1, h2, by rw [h2]⟩

theorem state_roundtrip_witness :
    ((Rng.new 1).state = 1 ∧
    Rng.new (Rng.mk 3 4).state = Rng.mk 3 4 ∧
    chunk 2 (Rng.new (Rng.mk 3 4).state) = chunk 2 (Rng.mk 3 4)) :=
  state_roundtrip 1 (Rng.mk 3 4) 2 (by decide) (by decide) (by decide) (by decide)

theorem u64_to_le_bytes_length (v : Nat) : (u64_to_le_bytes v).length = 8 := rfl

theorem fill_loop_le (g : Rng) (len : Nat) (h : len ≤ 8) :
    fill_loop g len = ((u64_to_le_bytes (next g).1).take len, (next g).2) := by
  rw [fill_loop.eq_def]
  simp [h]

theorem fill_loop_gt (g : Rng) (len : Nat) (h : ¬ len ≤ 8) :
    fill_loop g len =
      (u64_to_le_bytes (next g).1 ++ (fill_loop (next g).2 (len - 8)).1,
        (fill_loop (next g).2 (len - 8)).2) := by
  rw [fill_loop.eq_def]
  simp [h]

theorem chunk_length (n : Nat) : ∀ g : Rng, (chunk n g).1.length = n := by
  induction n with
  | zero => intro g; simp [chunk]
  | succ n ih => intro g; simp [chunk, ih]

theorem fill_loop_eq_spec (len : Nat) : ∀ g : Rng, 1 ≤ len → fill_loop g len = fill_spec g len := by
  induction len using Nat.strong_induction_on with
  | _ len ih =>
    intro g hlen
    by_cases hle : len ≤ 8
    · rw [fill_loop_le g len hle]
      have h1 : (len + 7) / 8 = 1 := by omega
      simp [fill_spec, h1, chunk]
    · rw [fill_loop_gt g len hle, ih (len - 8) (by omega) (next g).2 (by omega)]
      have hk : (len + 7) / 8 = (len - 8 + 7) / 8 + 1 := by omega
      simp only [fill_spec, hk, chunk, List.map_cons, List.flatten_cons]
      rw [List.take_append_eq_append_take,
        List.take_of_length_le (show (u64_to_le_bytes (next g).1).length ≤ len by
          rw [u64_to_le_bytes_length]; omega)]
      simp [u64_to_le_bytes_length]

theorem fill_eq (g : Rng) (len : Nat) : fill g len = fill_spec g len := by
  by_cases h0 : len = 0
  · subst h0
    simp [fill, fill_spec, chunk]
  · simp only [fill, h0, if_false]
    exact fill_loop_eq_spec len g (by omega)

/-- C5: for every buffer length and starting state, fill produces exactly
the little-endian byte concatenation of ceil(len/8) consecutive outputs
truncated to len bytes, advancing the state by exactly those ceil(len/8)
draws, and writes exactly len bytes; the partial tail comes from the last
drawn output, never from an extra draw. -/
theorem fill_refines_next_stream (g : Rng) (len : Nat) :
    fill g len = fill_spec g len ∧ (fill g len).1.length = len := by
  refine ⟨fill_eq g len, ?_⟩
  rw [fill_eq g len]
  simp only [fill_spec]
  rw [List.length_take]
  have hlen : ∀ ls : List Nat, ((ls.map u64_to_le_bytes).flatten).length = 8 * ls.length := by
    intro ls
    induction ls with
    | nil => simp
    | cons a ls ih =>
      simp only [List.map_cons, List.flatten_cons, List.length_append, ih,
        u64_to_le_bytes_length, List.length_cons]
      omega
  rw [hlen, chunk_length]
  omega

theorem rotate_right7_lt (x : Nat) (hx : x < 2^64) : rotate_right7 x < 2^64 := by
  rw [rotate_right7_eq x hx]
  omega

theorem next_out_lt (g : Rng) : (next g).1 < 2^64 := by
  simp only [next]
  exact Nat.mod_lt _ (by norm_num)

theorem next_good (g : Rng) (hg : good g) : good (next g).2 := by
  obtain ⟨hx, hy, hnz⟩ := hg
  simp only [next, good]
  refine ⟨Nat.xor_lt_two_pow (rotate_right7_lt g.x hx) hy, ?_, ?_⟩
  · apply Nat.xor_lt_two_pow hx
    rw [Nat.shiftRight_eq_div_pow]
    omega
  · rintro ⟨ha, hb⟩
    rw [Nat.xor_eq_zero, Nat.shiftRight_eq_div_pow] at hb
    have hx0 : g.x = 0 := by
      by_contra h
      have : g.x / 2^19 < g.x := Nat.div_lt_self (Nat.pos_of_ne_zero h) (by norm_num)
      omega
    rw [hx0] at ha
    have hrot : rotate_right7 0 = 0 := by decide
    rw [hrot, Nat.zero_xor] at ha
    exact hnz ⟨hx0, ha⟩

theorem chunk_good (n : Nat) : ∀ g : Rng, good g → good (chunk n g).2 := by
  induction n with
  | zero =>
    intro g hg
    simpa [chunk] using hg
  | succ n ih =>
    intro g hg
    simp only [chunk]
    exact ih _ (next_good g hg)

theorem split_child_good (g : Rng) (hg : good g) : good (split g).1 := by
  simp only [split, good]
  refine ⟨Nat.or_lt_two_pow (next_out_lt g) (by norm_num), next_out_lt _, ?_⟩
  rintro ⟨hx0, -⟩
  have := lor_one_mod_two (next g).1
  omega

theorem split_parent_good (g : Rng) (hg : good g) : good (split g).2 := by
  simp only [split]
  exact next_good _ (next_good g hg)

theorem new_good (s : Nat) (h0 : s ≠ 0) (hlt : s < 2^128) : good (Rng.new s) := by
  unfold Rng.new good
  simp only
  refine ⟨Nat.mod_lt _ (by norm_num), Nat.mod_lt _ (by norm_num), ?_⟩
  rintro ⟨ha, hb⟩
  rw [Nat.shiftRight_eq_div_pow] at hb
  have hq : s / 2^64 < 2^64 := by omega
  rw [Nat.mod_eq_of_lt hq] at hb
  omega

theorem make_state_ne_zero (seed : List Nat) : make_state seed ≠ 0 := by
  unfold make_state
  by_cases h : u128_from_le_bytes seed = 0 <;> simp [h]

theorem make_state_lt (seed : List Nat) (h16 : seed.length = 16)
    (hb : ∀ b ∈ seed, b < 256) : make_state seed < 2^128 := by
  have := u128_from_le_bytes_lt seed hb
  rw [h16] at this
  unfold make_state
  by_cases h : u128_from_le_bytes seed = 0
  · simp [h]
  · simp only [h, if_false]
    calc u128_from_le_bytes seed < 256^16 := this
    _ = 2^128 := by norm_num

theorem from_seed_good (seed : List Nat) (h16 : seed.length = 16)
    (hb : ∀ b ∈ seed, b < 256) : good (Rng.from_seed seed) :=
  new_good (make_state seed) (make_state_ne_zero seed) (make_state_lt seed h16 hb)

theorem reachable_good : ∀ g : Rng, Reachable g → good g := by
  intro g h
  induction h with
  | of_new s h0 hlt => exact new_good s h0 hlt
  | of_seed seed h16 hb => exact from_seed_good seed h16 hb
  | of_next g hg ih => exact next_good g ih
  | of_chunk n g hg ih => exact chunk_good n g ih
  | of_fill len g hg ih =>
    rw [fill_eq]
    simp only [fill_spec]
    exact chunk_good _ g ih
  | of_split_child g hg ih => exact split_child_good g ih
  | of_split_parent g hg ih => exact split_parent_good g ih

/-- C6: every reachable generator state — built by the public constructors
and advanced by any sequence of the public operations — is never the
all-zero word pair, so the 128-bit state value read back is never zero and
the unchecked nonzero construction in the state accessor is sound. -/
theorem reachable_state_ne_zero (g : Rng) (h : Reachable g) :
    ¬(g.x = 0 ∧ g.y = 0) ∧ g.state ≠ 0 := by
  obtain ⟨hx, hy, hnz⟩ := reachable_good g h
  refine ⟨hnz, ?_⟩
  rw [state_eq g hx]
  omega

theorem reachable_state_ne_zero_witness :
    ¬((Rng.from_seed seed_auto).x = 0 ∧ (Rng.from_seed seed_auto).y = 0) ∧
    (Rng.from_seed seed_auto).state ≠ 0 :=
  reachable_state_ne_zero (Rng.from_seed seed_auto)
    (Reachable.of_seed seed_auto (by decide) (by decide))

end DwRand
